import Mathlib

/-!
Formal model of the OpenTrickler RP2040 controller core: the scale
acquisition framework (generic and Sartorius serial protocol listeners,
measurement mailbox, serial write arbitration) and the servo gate motion
controller.  Byte strings are modelled as `List Char`, C `float`
arithmetic as exact rationals (`ℚ`), and the RTOS primitives (binary
semaphore, single-slot queue, scheduler state) as explicit state.
-/

namespace OpenTrickler

/-- C `isspace` for the default locale restricted to ASCII, as consulted by
`strtof` when skipping leading white space. -/
def isSpaceChar (c : Char) : Bool :=
  c = ' ' || c = '\t' || c = '\n' || c = '\x0b' || c = '\x0c' || c = '\r'

/-- Numeric value of an ASCII digit character. -/
def digitVal (c : Char) : ℕ := c.toNat - '0'.toNat

/-- Value of a digit string read most-significant first. -/
def natOfDigits (ds : List Char) : ℕ := ds.foldl (fun acc c => acc * 10 + digitVal c) 0

/-- Optional leading sign of a `strtof` subject sequence: returns the sign
factor, the remaining characters, and the number of characters consumed. -/
def parseSignChar (s : List Char) : ℚ × List Char × ℕ :=
  match s with
  | c :: rest =>
    if c = '-' then (-1, rest, 1)
    else if c = '+' then (1, rest, 1)
    else (1, s, 0)
  | [] => (1, [], 0)

/-- Power of ten with an integer exponent, kept kernel-computable. -/
def qpow10 (e : ℤ) : ℚ := if 0 ≤ e then ((10 : ℚ) ^ e.toNat) else 1 / (10 : ℚ) ^ (-e).toNat

/-- Exponent part of a `strtof` subject sequence: `e` or `E`, an optional
sign and at least one digit; consumed only when an exponent digit is
present (otherwise `strtof` backtracks to the mantissa). Returns the
exponent value and the number of characters consumed. -/
def parseExponent (s : List Char) : ℤ × ℕ :=
  match s with
  | [] => (0, 0)
  | c :: rest =>
    if c = 'e' ∨ c = 'E' then
      let sr := parseSignChar rest
      let ds := sr.2.1.takeWhile Char.isDigit
      if ds.length = 0 then (0, 0)
      else ((if sr.1 < 0 then -(natOfDigits ds : ℤ) else (natOfDigits ds : ℤ)), 1 + sr.2.2 + ds.length)
    else (0, 0)

/-- Model of C `strtof` restricted to decimal notation, the only forms the
scale protocols emit (hexadecimal, infinity and NaN spellings are outside
the model, and the value is the exact rational rather than its `float`
rounding).  Returns the parsed value and the number of characters
consumed, i.e. `endptr - nptr`; zero characters consumed means no
conversion was performed, in which case `strtof` leaves `endptr == nptr`
even when white space was skipped. -/
def strtofQ (s : List Char) : ℚ × ℕ :=
  let ws := s.takeWhile isSpaceChar
  let s1 := s.drop ws.length
  let sg := parseSignChar s1
  let s2 := sg.2.1
  let intDs := s2.takeWhile Char.isDigit
  let s3 := s2.dropWhile Char.isDigit
  let fr :=
    match s3 with
    | c :: rest =>
      if c = '.' then (rest.takeWhile Char.isDigit, rest.dropWhile Char.isDigit, 1)
      else (([] : List Char), s3, 0)
    | [] => (([] : List Char), ([] : List Char), 0)
  let fracDs := fr.1
  let s4 := fr.2.1
  let dotLen : ℕ := fr.2.2
  if intDs.length = 0 ∧ fracDs.length = 0 then (0, 0)
  else
    let ex := parseExponent s4
    let mant : ℚ := (natOfDigits intDs : ℚ) + (natOfDigits fracDs : ℚ) / (10 : ℚ) ^ fracDs.length
    (sg.1 * mant * qpow10 ex.1, ws.length + sg.2.2 + intDs.length + dotLen + fracDs.length + ex.2)

/-- Spelling of an unsigned decimal number: integer digits, then a dot
and the fractional digits when the fractional part is non-empty.  Used to
state which frames carry a well-formed number. -/
def mkNumber (d1 d2 : List Char) : List Char :=
  d1 ++ (if d2 = [] then [] else '.' :: d2)

/-- Exact value of a decimal-number spelling with integer digits `d1` and
fractional digits `d2`. -/
def decimalValue (d1 d2 : List Char) : ℚ :=
  (natOfDigits d1 : ℚ) + (natOfDigits d2 : ℚ) / (10 : ℚ) ^ d2.length

/-! ## Generic scale driver (`src/generic_scale.c`) -/

/-- Capacity of `char rx_buffer[32]` in `_generic_scale_listener_task`. -/
def GENERIC_RX_BUFFER_CAP : ℕ := 32

/-- Decode step of `_generic_scale_listener_task` once a newline arrived:
advance `startptr` past every character that is not a digit, `-` or `+`
(stopping at the NUL terminator), call `strtof`, and publish the value
iff `endptr != startptr`.  The frame passed in includes the newline, as
the C buffer does. -/
def genericDecodeFrame (frame : List Char) : Option ℚ :=
  let startp := frame.dropWhile (fun c => !(c.isDigit || c = '-' || c = '+'))
  let r := strtofQ startp
  if r.2 ≠ 0 then some r.1 else none

/-- Result of feeding one byte to the generic listener: the new buffer
contents, the measurement published during the step (if any), and every
index of `rx_buffer` written during the step. -/
structure GenericStepResult where
  buf : List Char
  published : Option ℚ
  writeIdxs : List ℕ
  deriving DecidableEq

/-- One received byte of `_generic_scale_listener_task`: reset the index
when it reached `sizeof(rx_buffer) - 1`, store the byte, and on `\n`
NUL-terminate and decode.  The buffer is modelled by its live contents
`rx_buffer[0..idx)`; `writeIdxs` records the index of the data-byte store
and, on dispatch, of the NUL store. -/
def genericStep (buf : List Char) (ch : Char) : GenericStepResult :=
  let buf0 := if GENERIC_RX_BUFFER_CAP - 1 ≤ buf.length then [] else buf
  let buf1 := buf0 ++ [ch]
  if ch = '\n' then
    { buf := [], published := genericDecodeFrame buf1, writeIdxs := [buf0.length, buf1.length] }
  else
    { buf := buf1, published := none, writeIdxs := [buf0.length] }

/-- Result of feeding a byte sequence to a listener: final buffer, the
published measurements in order, and every buffer index written. -/
structure RunResult where
  buf : List Char
  pubs : List ℚ
  writeIdxs : List ℕ
  deriving DecidableEq

/-- Feed bytes one at a time to the generic listener from a given buffer
state. -/
def genericRunFrom (buf : List Char) : List Char → RunResult
  | [] => { buf := buf, pubs := [], writeIdxs := [] }
  | ch :: rest =>
    let r := genericStep buf ch
    let rr := genericRunFrom r.buf rest
    { buf := rr.buf, pubs := r.published.toList ++ rr.pubs, writeIdxs := r.writeIdxs ++ rr.writeIdxs }

/-- Feed bytes one at a time to the generic listener from the initial
(empty) buffer state. -/
def genericRun (input : List Char) : RunResult := genericRunFrom [] input

/-! ## Sartorius scale driver (second part of `src/scale.c`) -/

/-- Capacity of `char buffer[32]` in `sartorius_buffer_t`. -/
def SARTORIUS_RX_BUFFER_CAP : ℕ := 32

/-- Decode rule `_decode_measurement_msg` of the Sartorius driver: an
optional sign character at position 0, then any number of spaces skipped,
then `strtof` of the remainder (which stops at the first character that
cannot extend the float); the result is the sign times the parsed value,
and 0 when nothing is left after the spaces. -/
def _decode_measurement_msg (msg : List Char) : ℚ :=
  let sg :=
    match msg with
    | c :: tail =>
      if c = '-' then ((-1 : ℚ), tail)
      else if c = '+' then ((1 : ℚ), tail)
      else ((1 : ℚ), msg)
    | [] => ((1 : ℚ), [])
  let rest := sg.2.dropWhile (fun c => c = ' ')
  sg.1 * (strtofQ rest).1

/-- One received byte of `_sartorius_scale_listener_task`: on `\r` or `\n`
decode and publish only when the buffer is non-empty; otherwise append
when below capacity, else reset and drop the byte.  `writeIdxs` records
the index of the data-byte store, and of the NUL store on dispatch. -/
def sartoriusStep (buf : List Char) (ch : Char) : GenericStepResult :=
  if ch = '\r' ∨ ch = '\n' then
    if 0 < buf.length then
      { buf := [], published := some (_decode_measurement_msg buf), writeIdxs := [buf.length] }
    else
      { buf := buf, published := none, writeIdxs := [] }
  else if buf.length < SARTORIUS_RX_BUFFER_CAP - 1 then
    { buf := buf ++ [ch], published := none, writeIdxs := [buf.length] }
  else
    { buf := [], published := none, writeIdxs := [] }

/-- Feed bytes one at a time to the Sartorius listener from a given buffer
state. -/
def sartoriusRunFrom (buf : List Char) : List Char → RunResult
  | [] => { buf := buf, pubs := [], writeIdxs := [] }
  | ch :: rest =>
    let r := sartoriusStep buf ch
    let rr := sartoriusRunFrom r.buf rest
    { buf := rr.buf, pubs := r.published.toList ++ rr.pubs, writeIdxs := r.writeIdxs ++ rr.writeIdxs }

/-- Feed bytes one at a time to the Sartorius listener from the initial
(empty) buffer state. -/
def sartoriusRun (input : List Char) : RunResult := sartoriusRunFrom [] input

/-! ## Measurement mailbox (`scale.c`: `current_scale_measurement` plus the
binary semaphore `scale_measurement_ready`) -/

/-- Mailbox state: the stored measurement and the binary semaphore that
signals its readiness (a binary semaphore holds at most one token). -/
structure Mailbox where
  current_scale_measurement : ℚ
  measurement_ready : Bool
  deriving DecidableEq

/-- Publication as performed by the listener tasks: store the value into
`current_scale_measurement`, then `xSemaphoreGive` the readiness
semaphore; giving an already-given binary semaphore leaves one token
(overwrite, no queuing). -/
def scale_publish_measurement (v : ℚ) (_m : Mailbox) : Mailbox :=
  { current_scale_measurement := v, measurement_ready := true }

/-- FreeRTOS tick delay: either a finite tick count or the
`portMAX_DELAY` indefinite wait. -/
inductive DelayTicks
  | finite (ticks : ℕ)
  | infinite
  deriving DecidableEq

/-- Modelled from the spec: `pdMS_TO_TICKS` of the FreeRTOS configuration
headers is not under the sources; the tick-rate conversion is abstracted
as a monotone bound carried in milliseconds. -/
def pdMS_TO_TICKS (ms : ℕ) : ℕ := ms

/-- Timeout selection in `scale_block_wait_for_next_measurement`:
`block_time_ms == 0` selects `portMAX_DELAY` (wait indefinitely),
otherwise the converted finite tick count. -/
def scale_wait_delay_ticks (block_time_ms : ℕ) : DelayTicks :=
  if block_time_ms = 0 then .infinite else .finite (pdMS_TO_TICKS block_time_ms)

/-- Result of `scale_block_wait_for_next_measurement`: the boolean return,
the value of `*current_measurement` after the call, and the mailbox
state after the call. -/
structure WaitResult where
  ok : Bool
  out : ℚ
  mailbox : Mailbox
  deriving DecidableEq

/-- Wait step of `scale_block_wait_for_next_measurement` against the
current mailbox state: when a readiness token is pending the take
succeeds, consumes the token and copies the stored measurement out;
otherwise the take times out and the output location is untouched. -/
def scale_block_wait_for_next_measurement (m : Mailbox) (out0 : ℚ) : WaitResult :=
  if m.measurement_ready then
    { ok := true, out := m.current_scale_measurement,
      mailbox := { m with measurement_ready := false } }
  else
    { ok := false, out := out0, mailbox := m }

/-! ## Serial write arbitration (`scale.c`: `scale_write`) -/

/-- FreeRTOS scheduler state as returned by `xTaskGetSchedulerState`. -/
inductive SchedulerState
  | notStarted
  | suspended
  | running
  deriving DecidableEq

/-- Observable operations of `scale_write` on the shared serial port. -/
inductive SerialOp
  | takeMutex
  | uartWriteBlocking
  | giveMutex
  deriving DecidableEq

/-- `_take_mutex`: acquire the serial-write mutex unless the scheduler has
not started. -/
def _take_mutex (s : SchedulerState) : List SerialOp :=
  if s ≠ .notStarted then [.takeMutex] else []

/-- `_give_mutex`: release the serial-write mutex unless the scheduler has
not started. -/
def _give_mutex (s : SchedulerState) : List SerialOp :=
  if s ≠ .notStarted then [.giveMutex] else []

/-- Operation trace of `scale_write`: read the scheduler state once,
conditionally take the mutex, always perform the blocking UART write,
conditionally give the mutex back. -/
def scale_write (s : SchedulerState) : List SerialOp :=
  _take_mutex s ++ [SerialOp.uartWriteBlocking] ++ _give_mutex s

/-! ## Servo gate motion controller (`servo_gate.c`, ratio-command version) -/

/-- Gate coarse state, in the source's enumeration order. -/
inductive gate_state_t
  | GATE_DISABLED
  | GATE_CLOSE
  | GATE_OPEN
  deriving DecidableEq

/-- Persistent servo gate configuration.  The duty cycles and speeds are
the exact rationals behind the `float` literals of the source. -/
structure eeprom_servo_gate_config_t where
  servo_gate_config_rev : ℕ
  servo_gate_enable : Bool
  shutter0_close_duty_cycle : ℚ
  shutter0_open_duty_cycle : ℚ
  shutter1_close_duty_cycle : ℚ
  shutter1_open_duty_cycle : ℚ
  shutter_close_speed_pct_s : ℚ
  shutter_open_speed_pct_s : ℚ
  deriving DecidableEq

/-- `default_eeprom_servo_gate_config` of the source. -/
def default_eeprom_servo_gate_config : eeprom_servo_gate_config_t :=
  { servo_gate_config_rev := 0
    servo_gate_enable := false
    shutter0_close_duty_cycle := 9 / 100
    shutter0_open_duty_cycle := 5 / 100
    shutter1_close_duty_cycle := 5 / 100
    shutter1_open_duty_cycle := 9 / 100
    shutter_open_speed_pct_s := 5
    shutter_close_speed_pct_s := 3 }

/-- `_pwm_full_scale_level` of the source. -/
def _pwm_full_scale_level : ℕ := 65535

/-- `clamp01` of the source. -/
def clamp01 (x : ℚ) : ℚ := if x < 0 then 0 else if 1 < x then 1 else x

/-- Modelled from the spec: `SERVO_GATE_RATIO_DISABLED` comes from a
header revision that is not under the sources; the spec calls it "a
distinct out-of-range value, not interchangeable with any clamped
ratio".  It is modelled as −1, distinct from every clamped ratio and
from `UNKNOWN_RATIO`. -/
def SERVO_GATE_RATIO_DISABLED : ℚ := -1

/-- `UNKNOWN_RATIO` local constant of `servo_gate_control_task`. -/
def UNKNOWN_RATIO : ℚ := -2

/-- Gate command carried by the single-slot control queue. -/
structure servo_gate_cmd_t where
  ratio : ℚ
  block_wait : Bool
  deriving DecidableEq

/-- Per-shutter duty-cycle levels computed by
`_servo_gate_set_current_state` for a given open ratio, before the
truncating cast to `uint16_t`:
`_pwm_full_scale_level * (open_dc + (close_dc - open_dc) * open_ratio)`
independently for each shutter. -/
def servo_gate_duty_levels (cfg : eeprom_servo_gate_config_t) (open_ratio : ℚ) : ℚ × ℚ :=
  let shutter0_range := cfg.shutter0_close_duty_cycle - cfg.shutter0_open_duty_cycle
  let shutter1_range := cfg.shutter1_close_duty_cycle - cfg.shutter1_open_duty_cycle
  ((_pwm_full_scale_level : ℚ) * (cfg.shutter0_open_duty_cycle + shutter0_range * open_ratio),
   (_pwm_full_scale_level : ℚ) * (cfg.shutter1_open_duty_cycle + shutter1_range * open_ratio))

/-- Task-local state of `servo_gate_control_task` between commands. -/
structure ServoTaskState where
  prev_open_ratio : ℚ
  gate_state : gate_state_t
  deriving DecidableEq

/-- Result of processing one dequeued command: the state after the
command, the open-ratio arguments passed to
`_servo_gate_set_current_state` in order, and how many times the
motion-ready semaphore was given. -/
structure ServoCmdResult where
  state : ServoTaskState
  writes : List ℚ
  ready_signals : ℕ
  deriving DecidableEq

/-- `ramp_time_us` computation: `(uint32_t)(fabsf(delta / speed) * 1e6f)`,
the truncating cast modelled as the floor. -/
def ramp_time_us (delta speed : ℚ) : ℕ := ⌊|delta / speed| * 1000000⌋₊

/-- Interpolation loop of the ramp: `times` are the successive
`time_us_32()` readings taken by the loop; the loop exits at the first
reading strictly past `startT + rampUs` and otherwise writes
`r0 + delta * ((t - startT) / rampUs)`. -/
def ramp_loop_writes (r0 delta : ℚ) (startT rampUs : ℕ) : List ℕ → List ℚ
  | [] => []
  | t :: ts =>
    if startT + rampUs < t then []
    else (r0 + delta * (((t - startT : ℕ) : ℚ) / (rampUs : ℚ))) :: ramp_loop_writes r0 delta startT rampUs ts

/-- One iteration of `servo_gate_control_task` for one dequeued command.
The float comparisons against `0.0001f` and `0.9999f` are modelled by the
exact rationals behind those literals.  `startT` is the `time_us_32()`
reading at ramp start and `times` the readings inside the loop; the
microsecond clock is assumed not to wrap during a ramp. -/
def servo_gate_process_cmd (cfg : eeprom_servo_gate_config_t) (s : ServoTaskState)
    (cmd : servo_gate_cmd_t) (startT : ℕ) (times : List ℕ) : ServoCmdResult :=
  if cmd.ratio = SERVO_GATE_RATIO_DISABLED then
    { state := { s with gate_state := .GATE_DISABLED }, writes := [], ready_signals := 1 }
  else
    let new_open_ratio := clamp01 cmd.ratio
    let writes :=
      if s.prev_open_ratio = UNKNOWN_RATIO then [new_open_ratio]
      else if 1 / 10000 < |new_open_ratio - s.prev_open_ratio| then
        let delta := new_open_ratio - s.prev_open_ratio
        let speed0 := if delta < 0 then cfg.shutter_open_speed_pct_s else cfg.shutter_close_speed_pct_s
        let speed := if speed0 < 1 / 10000 then 1 / 10000 else speed0
        let rampUs := ramp_time_us delta speed
        if rampUs < 1000 then [new_open_ratio]
        else ramp_loop_writes s.prev_open_ratio delta startT rampUs times ++ [new_open_ratio]
      else []
    let gs :=
      if new_open_ratio ≤ 1 / 10000 then gate_state_t.GATE_OPEN
      else if 9999 / 10000 ≤ new_open_ratio then gate_state_t.GATE_CLOSE
      else s.gate_state
    { state := { prev_open_ratio := new_open_ratio, gate_state := gs },
      writes := writes, ready_signals := 1 }

/-! ## Theorems -/

set_option maxRecDepth 40000

/-- A digit character differs from any non-digit character. -/
theorem ne_of_digit_of_not {c d : Char} (h : c.isDigit = true) (hd : d.isDigit = false) :
    c ≠ d := by
  intro e
  rw [e, hd] at h
  exact absurd h (by decide)

/-- A decimal digit is not white space. -/
theorem digit_not_space {c : Char} (h : c.isDigit = true) : isSpaceChar c = false := by
  unfold Char.isDigit at h
  simp only [Bool.and_eq_true, decide_eq_true_eq] at h
  obtain ⟨h1, h2⟩ := h
  unfold isSpaceChar
  simp only [Bool.or_eq_false_iff, decide_eq_false_iff_not]
  refine ⟨⟨⟨⟨⟨?_, ?_⟩, ?_⟩, ?_⟩, ?_⟩, ?_⟩ <;> (rintro rfl; revert h1 h2; decide)

/-- Greedy digit scan over a digit block followed by a non-digit: the
block is taken whole. -/
theorem takeWhile_digits_append (l u : List Char) (hl : ∀ c ∈ l, c.isDigit = true)
    (hu : ∀ c, u.head? = some c → c.isDigit = false) :
    (l ++ u).takeWhile Char.isDigit = l := by
  rw [List.takeWhile_append_of_pos hl]
  cases u with
  | nil => simp
  | cons c r =>
    rw [List.takeWhile_cons_of_neg (by simp [hu c rfl])]
    simp

/-- Greedy digit scan over a digit block followed by a non-digit: the
remainder is returned whole. -/
theorem dropWhile_digits_append (l u : List Char) (hl : ∀ c ∈ l, c.isDigit = true)
    (hu : ∀ c, u.head? = some c → c.isDigit = false) :
    (l ++ u).dropWhile Char.isDigit = u := by
  rw [List.dropWhile_append_of_pos hl]
  cases u with
  | nil => simp
  | cons c r => exact List.dropWhile_cons_of_neg (by simp [hu c rfl])

/-- The exponent parser consumes nothing when the next character is not
an exponent marker. -/
theorem parseExponent_stop (u : List Char)
    (hu : ∀ c, u.head? = some c → c ≠ 'e' ∧ c ≠ 'E') :
    parseExponent u = (0, 0) := by
  cases u with
  | nil => rfl
  | cons c r =>
    obtain ⟨h1, h2⟩ := hu c rfl
    simp only [parseExponent]
    rw [if_neg (by simp [h1, h2])]

/-- Ten to the zeroth power. -/
theorem qpow10_zero : qpow10 0 = 1 := by norm_num [qpow10]

/-- Mantissa evaluation of `strtofQ`: once the white-space and sign
stages are fixed, a decimal-number spelling followed by inert text parses
to its exact value, consuming the sign and the number. -/
theorem strtofQ_eval_core (sv : ℚ) (sl : ℕ) (d1 d2 u : List Char) (w : List Char)
    (hws : w.takeWhile isSpaceChar = [])
    (hsg : parseSignChar w = (sv, mkNumber d1 d2 ++ u, sl))
    (hd1 : ∀ c ∈ d1, c.isDigit = true) (hd2 : ∀ c ∈ d2, c.isDigit = true)
    (h1 : d1 ≠ [])
    (hu : ∀ c, u.head? = some c →
      c.isDigit = false ∧ c ≠ '.' ∧ c ≠ 'e' ∧ c ≠ 'E') :
    strtofQ w = (sv * decimalValue d1 d2, sl + (mkNumber d1 d2).length) := by
  have huDigit : ∀ c, u.head? = some c → c.isDigit = false := fun c hc => (hu c hc).1
  have hexp : parseExponent u = (0, 0) :=
    parseExponent_stop u (fun c hc => ⟨(hu c hc).2.2.1, (hu c hc).2.2.2⟩)
  have h1len : ¬(d1.length = 0) := fun h => h1 (List.length_eq_zero.mp h)
  rcases hd2c : d2 with _ | ⟨c2, d2t⟩
  · -- no fractional part: the number is just the integer digits
    subst hd2c
    have hmk : mkNumber d1 [] = d1 := by simp [mkNumber]
    rw [hmk] at hsg
    have htake : (d1 ++ u).takeWhile Char.isDigit = d1 :=
      takeWhile_digits_append _ _ hd1 huDigit
    have hdrop : (d1 ++ u).dropWhile Char.isDigit = u :=
      dropWhile_digits_append _ _ hd1 huDigit
    rw [hmk]
    rcases hu0 : u with _ | ⟨cu, ru⟩
    · subst hu0
      simp only [strtofQ, hws, List.length_nil, List.drop_zero, hsg, htake, hdrop]
      rw [if_neg (fun hh => h1len hh.1)]
      simp only [hexp, qpow10_zero, mul_one, Prod.mk.injEq, decimalValue]
      constructor
      · rfl
      · omega
    · subst hu0
      have hcu : ¬(cu = '.') := (hu cu rfl).2.1
      simp only [strtofQ, hws, List.length_nil, List.drop_zero, hsg, htake, hdrop]
      rw [if_neg hcu, if_neg (fun hh => h1len hh.1)]
      simp only [hexp, qpow10_zero, mul_one, Prod.mk.injEq, decimalValue]
      refine ⟨by first | rfl | trivial, ?_⟩
      simp only [List.length_nil, List.length_cons]
      omega
  · -- fractional digits present: the number is d1, a dot, then d2
    subst hd2c
    have hmk : mkNumber d1 (c2 :: d2t) = d1 ++ '.' :: (c2 :: d2t) := by simp [mkNumber]
    rw [hmk] at hsg
    have hmid : ∀ c, ('.' :: (c2 :: d2t) ++ u).head? = some c → c.isDigit = false := by
      intro c hc
      simp only [List.cons_append, List.head?_cons, Option.some.injEq] at hc
      subst hc
      decide
    have htake : ((d1 ++ '.' :: (c2 :: d2t)) ++ u).takeWhile Char.isDigit = d1 := by
      rw [List.append_assoc]
      exact takeWhile_digits_append _ _ hd1 hmid
    have hdrop : ((d1 ++ '.' :: (c2 :: d2t)) ++ u).dropWhile Char.isDigit
        = '.' :: ((c2 :: d2t) ++ u) := by
      rw [List.append_assoc]
      rw [dropWhile_digits_append _ _ hd1 hmid]
      simp
    have hftake : ((c2 :: d2t) ++ u).takeWhile Char.isDigit = c2 :: d2t :=
      takeWhile_digits_append _ _ hd2 huDigit
    have hfdrop : ((c2 :: d2t) ++ u).dropWhile Char.isDigit = u :=
      dropWhile_digits_append _ _ hd2 huDigit
    rw [hmk]
    simp only [strtofQ, hws, List.length_nil, List.drop_zero, hsg, htake, hdrop,
      if_true, hftake, hfdrop]
    rw [if_neg (fun hh => h1len hh.1)]
    simp only [hexp, qpow10_zero, mul_one, Prod.mk.injEq, decimalValue]
    refine ⟨by first | rfl | trivial, ?_⟩
    simp only [List.length_append, List.length_cons]
    omega

/-- Evaluation of `strtofQ` on an optionally signed decimal-number
spelling followed by inert text: the signed exact value, consuming the
sign and the number. -/
theorem strtofQ_eval (sgn d1 d2 u : List Char)
    (hs : sgn = [] ∨ sgn = ['+'] ∨ sgn = ['-'])
    (hd1 : ∀ c ∈ d1, c.isDigit = true) (hd2 : ∀ c ∈ d2, c.isDigit = true)
    (h1 : d1 ≠ [])
    (hu : ∀ c, u.head? = some c →
      c.isDigit = false ∧ c ≠ '.' ∧ c ≠ 'e' ∧ c ≠ 'E') :
    strtofQ (sgn ++ (mkNumber d1 d2 ++ u))
      = ((if sgn = ['-'] then (-1 : ℚ) else 1) * decimalValue d1 d2,
         sgn.length + (mkNumber d1 d2).length) := by
  obtain ⟨cb, d1t, rfl⟩ : ∃ cb d1t, d1 = cb :: d1t := by
    cases d1 with
    | nil => exact absurd rfl h1
    | cons a b => exact ⟨a, b, rfl⟩
  have hcb : cb.isDigit = true := hd1 cb (List.mem_cons_self _ _)
  obtain ⟨tail, htail⟩ : ∃ tail, mkNumber (cb :: d1t) d2 ++ u = cb :: tail := by
    refine ⟨d1t ++ ((if d2 = [] then [] else '.' :: d2) ++ u), ?_⟩
    simp [mkNumber]
  rcases hs with rfl | rfl | rfl
  · rw [List.nil_append]
    have hws : (mkNumber (cb :: d1t) d2 ++ u).takeWhile isSpaceChar = [] := by
      rw [htail]
      exact List.takeWhile_cons_of_neg (by simp [digit_not_space hcb])
    have hsg : parseSignChar (mkNumber (cb :: d1t) d2 ++ u)
        = (1, mkNumber (cb :: d1t) d2 ++ u, 0) := by
      rw [htail]
      simp only [parseSignChar]
      rw [if_neg (ne_of_digit_of_not hcb (by decide)),
        if_neg (ne_of_digit_of_not hcb (by decide))]
    rw [strtofQ_eval_core 1 0 (cb :: d1t) d2 u _ hws hsg hd1 hd2 (by simp) hu]
    simp
  · simp only [List.cons_append, List.nil_append]
    have hws : ('+' :: (mkNumber (cb :: d1t) d2 ++ u)).takeWhile isSpaceChar = [] :=
      List.takeWhile_cons_of_neg (by decide)
    have hsg : parseSignChar ('+' :: (mkNumber (cb :: d1t) d2 ++ u))
        = (1, mkNumber (cb :: d1t) d2 ++ u, 1) := by
      simp only [parseSignChar]
      simp
    rw [strtofQ_eval_core 1 1 (cb :: d1t) d2 u _ hws hsg hd1 hd2 (by simp) hu]
    simp
  · simp only [List.cons_append, List.nil_append]
    have hws : ('-' :: (mkNumber (cb :: d1t) d2 ++ u)).takeWhile isSpaceChar = [] :=
      List.takeWhile_cons_of_neg (by decide)
    have hsg : parseSignChar ('-' :: (mkNumber (cb :: d1t) d2 ++ u))
        = (-1, mkNumber (cb :: d1t) d2 ++ u, 1) := by
      simp only [parseSignChar]
      simp
    rw [strtofQ_eval_core (-1) 1 (cb :: d1t) d2 u _ hws hsg hd1 hd2 (by simp) hu]
    simp

/-- Inert-unit-text condition for a concrete head character. -/
theorem unit_head_cons (c0 : Char) (r : List Char)
    (h : c0.isDigit = false ∧ c0 ≠ '.' ∧ c0 ≠ 'e' ∧ c0 ≠ 'E') :
    ∀ c, ((c0 :: r).head? = some c) → c.isDigit = false ∧ c ≠ '.' ∧ c ≠ 'e' ∧ c ≠ 'E' := by
  intro c hc
  simp only [List.head?_cons, Option.some.injEq] at hc
  subst hc
  exact h

/-- Inert-unit-text condition for the empty remainder. -/
theorem unit_head_nil :
    ∀ c : Char, (([] : List Char).head? = some c) →
      c.isDigit = false ∧ c ≠ '.' ∧ c ≠ 'e' ∧ c ≠ 'E' := by
  intro c hc
  simp at hc

/-- The space skip of the Sartorius decode crosses any run of spaces and
stops at the first non-space. -/
theorem dropWhile_spaces (nsp : ℕ) (l : List Char) (c0 : Char) (tail : List Char)
    (hl : l = c0 :: tail) (hc : ¬(c0 = ' ')) :
    (List.replicate nsp ' ' ++ l).dropWhile (fun c => c = ' ') = l := by
  rw [List.dropWhile_append_of_pos (by intro a ha; simpa using (List.eq_of_mem_replicate ha)),
    hl, List.dropWhile_cons_of_neg (by simpa using hc)]

/-- Evaluation of the Sartorius decode on a frame of the documented
shape: optional sign, spaces, a decimal number, inert unit text; the
result is the signed exact value of the number. -/
theorem _decode_measurement_msg_eval (sgnC : List Char) (nsp : ℕ) (d1 d2 u : List Char)
    (hs : sgnC = [] ∨ sgnC = ['+'] ∨ sgnC = ['-'])
    (hd1 : ∀ c ∈ d1, c.isDigit = true) (hd2 : ∀ c ∈ d2, c.isDigit = true)
    (h1 : d1 ≠ [])
    (hu : ∀ c, u.head? = some c →
      c.isDigit = false ∧ c ≠ '.' ∧ c ≠ 'e' ∧ c ≠ 'E') :
    _decode_measurement_msg (sgnC ++ (List.replicate nsp ' ' ++ (mkNumber d1 d2 ++ u)))
      = (if sgnC = ['-'] then (-1 : ℚ) else 1) * decimalValue d1 d2 := by
  obtain ⟨cb, d1t, rfl⟩ : ∃ cb d1t, d1 = cb :: d1t := by
    cases d1 with
    | nil => exact absurd rfl h1
    | cons a b => exact ⟨a, b, rfl⟩
  have hcb : cb.isDigit = true := hd1 cb (List.mem_cons_self _ _)
  obtain ⟨tail, htail⟩ : ∃ tail, mkNumber (cb :: d1t) d2 ++ u = cb :: tail := by
    refine ⟨d1t ++ ((if d2 = [] then [] else '.' :: d2) ++ u), ?_⟩
    simp [mkNumber]
  have hdw : (List.replicate nsp ' ' ++ (mkNumber (cb :: d1t) d2 ++ u)).dropWhile
      (fun c => c = ' ') = mkNumber (cb :: d1t) d2 ++ u :=
    dropWhile_spaces nsp _ cb tail htail
      (ne_of_digit_of_not hcb (by decide))
  have hval := strtofQ_eval [] (cb :: d1t) d2 u (Or.inl rfl) hd1 hd2 (by simp) hu
  rw [List.nil_append] at hval
  rcases hs with rfl | rfl | rfl
  · rw [List.nil_append]
    rcases hnsp : nsp with _ | n
    · subst hnsp
      simp only [List.replicate, List.nil_append] at hdw ⊢
      simp only [_decode_measurement_msg, htail]
      rw [if_neg (ne_of_digit_of_not hcb (by decide)),
        if_neg (ne_of_digit_of_not hcb (by decide)), ← htail]
      simp [hdw, hval]
    · subst hnsp
      simp only [List.replicate_succ, List.cons_append] at hdw ⊢
      simp only [_decode_measurement_msg]
      rw [if_neg (by decide : ¬(' ' = '-')), if_neg (by decide : ¬(' ' = '+'))]
      simp [hdw, hval]
  · simp only [List.cons_append, List.nil_append]
    simp only [_decode_measurement_msg, if_true]
    simp [hdw, hval]
  · simp only [List.cons_append, List.nil_append]
    simp only [_decode_measurement_msg, if_true]
    simp [hdw, hval]


/-- A DISABLED command: the coarse state becomes Disabled, nothing is
written, one ready signal, `prev_open_ratio` untouched. -/
theorem servo_process_disabled (cfg : eeprom_servo_gate_config_t) (s : ServoTaskState)
    (bw : Bool) (startT : ℕ) (times : List ℕ) :
    servo_gate_process_cmd cfg s { ratio := SERVO_GATE_RATIO_DISABLED, block_wait := bw }
        startT times
      = { state := { s with gate_state := .GATE_DISABLED }, writes := [],
          ready_signals := 1 } := by
  unfold servo_gate_process_cmd
  rw [if_pos rfl]

/-- A closing ramp command: with a known previous ratio, an in-range
target farther than the epsilon, a positive delta, a sane closing speed
and a ramp of at least 1 ms, the writes are the loop writes followed by
one exact write of the target, and the target is stored as the new
previous ratio. -/
theorem servo_process_ramp (cfg : eeprom_servo_gate_config_t) (r0 r1 : ℚ)
    (gs : gate_state_t) (bw : Bool) (startT : ℕ) (times : List ℕ)
    (hdis : r1 ≠ SERVO_GATE_RATIO_DISABLED) (hunk : r0 ≠ UNKNOWN_RATIO)
    (hcl : clamp01 r1 = r1) (heps : 1 / 10000 < |r1 - r0|) (hneg : ¬(r1 - r0 < 0))
    (hsp : ¬(cfg.shutter_close_speed_pct_s < 1 / 10000))
    (hbig : ¬(ramp_time_us (r1 - r0) cfg.shutter_close_speed_pct_s < 1000)) :
    (servo_gate_process_cmd cfg { prev_open_ratio := r0, gate_state := gs }
        { ratio := r1, block_wait := bw } startT times).writes
      = ramp_loop_writes r0 (r1 - r0) startT
          (ramp_time_us (r1 - r0) cfg.shutter_close_speed_pct_s) times ++ [r1] ∧
    (servo_gate_process_cmd cfg { prev_open_ratio := r0, gate_state := gs }
        { ratio := r1, block_wait := bw } startT times).state.prev_open_ratio = r1 := by
  have hdis' : ({ ratio := r1, block_wait := bw } : servo_gate_cmd_t).ratio
      ≠ SERVO_GATE_RATIO_DISABLED := hdis
  simp only [servo_gate_process_cmd]
  rw [if_neg hdis']
  simp only [hcl]
  rw [if_neg hunk, if_pos heps, if_neg hneg, if_neg hsp, if_neg hbig]
  constructor <;> first | rfl | trivial

/-- C9: `scale_write` performs the UART write in all cases, acquires the
serial-write mutex iff the scheduler state is not "not started", and
releases the mutex exactly when it acquired it: before the scheduler
starts the trace is a bare write, afterwards it is take, write, give. -/
theorem scale_write_mutex_policy (s : SchedulerState) :
    SerialOp.uartWriteBlocking ∈ scale_write s ∧
    ((SerialOp.takeMutex ∈ scale_write s) ↔ s ≠ .notStarted) ∧
    (scale_write s).count SerialOp.giveMutex = (scale_write s).count SerialOp.takeMutex ∧
    scale_write s = (if s = .notStarted then [SerialOp.uartWriteBlocking]
      else [SerialOp.takeMutex, SerialOp.uartWriteBlocking, SerialOp.giveMutex]) := by
  cases s <;> decide

/-- C3: processing any dequeued command — disabled, first-move, skipped,
instantaneous or ramped — gives the motion-ready semaphore exactly once. -/
theorem servo_motion_ready_exactly_once (cfg : eeprom_servo_gate_config_t)
    (s : ServoTaskState) (cmd : servo_gate_cmd_t) (startT : ℕ) (times : List ℕ) :
    (servo_gate_process_cmd cfg s cmd startT times).ready_signals = 1 := by
  unfold servo_gate_process_cmd
  split <;> rfl

/-- C4: a DISABLED command sets the coarse state to Disabled, performs no
hardware write, signals motion-ready once and leaves `prev_open_ratio`
unchanged; consequently a gate at ratio 0 that receives DISABLED and later
ratio 1 ramps from 0 (its first ramp write is at ratio 0, not a reset
value) to a final exact write of 1, with the ramp duration 333333 µs
derived from the closing speed (3 ratio-fractions per second in the
default configuration), so the sample at 111111 µs maps to ratio 1/3. -/
theorem servo_disabled_preserves_prev_ratio :
    (∀ (cfg : eeprom_servo_gate_config_t) (s : ServoTaskState) (bw : Bool) (startT : ℕ)
        (times : List ℕ),
      (servo_gate_process_cmd cfg s { ratio := SERVO_GATE_RATIO_DISABLED, block_wait := bw }
          startT times).state.gate_state = .GATE_DISABLED ∧
      (servo_gate_process_cmd cfg s { ratio := SERVO_GATE_RATIO_DISABLED, block_wait := bw }
          startT times).writes = [] ∧
      (servo_gate_process_cmd cfg s { ratio := SERVO_GATE_RATIO_DISABLED, block_wait := bw }
          startT times).ready_signals = 1 ∧
      (servo_gate_process_cmd cfg s { ratio := SERVO_GATE_RATIO_DISABLED, block_wait := bw }
          startT times).state.prev_open_ratio = s.prev_open_ratio) ∧
    ((servo_gate_process_cmd default_eeprom_servo_gate_config
        { prev_open_ratio := 0, gate_state := .GATE_OPEN }
        { ratio := SERVO_GATE_RATIO_DISABLED, block_wait := false } 0 []).state.prev_open_ratio
        = 0 ∧
      ramp_time_us (1 - 0) default_eeprom_servo_gate_config.shutter_close_speed_pct_s
        = 333333 ∧
      (servo_gate_process_cmd default_eeprom_servo_gate_config
        (servo_gate_process_cmd default_eeprom_servo_gate_config
          { prev_open_ratio := 0, gate_state := .GATE_OPEN }
          { ratio := SERVO_GATE_RATIO_DISABLED, block_wait := false } 0 []).state
        { ratio := 1, block_wait := false } 0 [0, 111111]).writes = [0, 1/3, 1] ∧
      (servo_gate_process_cmd default_eeprom_servo_gate_config
        (servo_gate_process_cmd default_eeprom_servo_gate_config
          { prev_open_ratio := 0, gate_state := .GATE_OPEN }
          { ratio := SERVO_GATE_RATIO_DISABLED, block_wait := false } 0 []).state
        { ratio := 1, block_wait := false } 0 [0, 111111]).state.prev_open_ratio = 1) := by
  have hru : ramp_time_us ((1 : ℚ) - 0)
      default_eeprom_servo_gate_config.shutter_close_speed_pct_s = 333333 := by
    rw [show default_eeprom_servo_gate_config.shutter_close_speed_pct_s = 3 from rfl]
    unfold ramp_time_us
    rw [show |((1 : ℚ) - 0) / 3| * 1000000 = 1000000 / 3 by
      rw [abs_of_nonneg (by norm_num : (0 : ℚ) ≤ (1 - 0) / 3)]; norm_num]
    rw [Nat.floor_eq_iff (by norm_num)]
    norm_num
  have hrw : ramp_loop_writes 0 ((1 : ℚ) - 0) 0 333333 [0, 111111] = [0, 1/3] := by
    simp only [ramp_loop_writes]
    rw [if_neg (by norm_num), if_neg (by norm_num)]
    norm_num
  have hd := servo_process_disabled default_eeprom_servo_gate_config
    { prev_open_ratio := 0, gate_state := .GATE_OPEN } false 0 []
  have hmain := servo_process_ramp default_eeprom_servo_gate_config 0 1 .GATE_DISABLED
    false 0 [0, 111111]
    (by norm_num [SERVO_GATE_RATIO_DISABLED]) (by norm_num [ UNKNOWN_RATIO])
    (by norm_num [clamp01]) (by norm_num) (by norm_num)
    (by rw [show default_eeprom_servo_gate_config.shutter_close_speed_pct_s = 3 from rfl]
        norm_num)
    (by rw [hru]; norm_num)
  constructor
  · intro cfg s bw startT times
    simp [servo_gate_process_cmd]
  · refine ⟨?_, ?_, ?_, ?_⟩
    · rw [hd]
    · exact hru
    · rw [hd]
      dsimp only
      rw [hmain.1, hru, hrw]
      rfl
    · rw [hd]
      dsimp only
      exact hmain.2

/-- C6: with a known previous ratio, a non-DISABLED command whose clamped
target lies within 0.0001 of the previous ratio performs no hardware
write for that command and only raises the motion-ready signal. -/
theorem servo_skip_within_epsilon (cfg : eeprom_servo_gate_config_t)
    (prev : ℚ) (gs : gate_state_t) (cmd : servo_gate_cmd_t) (startT : ℕ) (times : List ℕ)
    (hknown : prev ≠ UNKNOWN_RATIO) (hcmd : cmd.ratio ≠ SERVO_GATE_RATIO_DISABLED)
    (hnear : |clamp01 cmd.ratio - prev| ≤ 1 / 10000) :
    (servo_gate_process_cmd cfg { prev_open_ratio := prev, gate_state := gs } cmd
      startT times).writes = [] ∧
    (servo_gate_process_cmd cfg { prev_open_ratio := prev, gate_state := gs } cmd
      startT times).ready_signals = 1 := by
  have h2 : ¬((10000 : ℚ)⁻¹ < |clamp01 cmd.ratio - prev|) := by
    rw [← one_div]; exact not_lt.mpr hnear
  simp [servo_gate_process_cmd, hcmd, hknown, h2]

/-- Witness for C6 at the default configuration: previous ratio 1/2,
command ratio 1/2. -/
theorem servo_skip_within_epsilon_witness :
    ((1 : ℚ)/2 ≠ UNKNOWN_RATIO) ∧
    (({ ratio := 1/2, block_wait := false } : servo_gate_cmd_t).ratio
      ≠ SERVO_GATE_RATIO_DISABLED) ∧
    |clamp01 ({ ratio := 1/2, block_wait := false } : servo_gate_cmd_t).ratio - 1/2|
      ≤ 1 / 10000 ∧
    ((servo_gate_process_cmd default_eeprom_servo_gate_config
        { prev_open_ratio := 1/2, gate_state := .GATE_CLOSE }
        { ratio := 1/2, block_wait := false } 0 []).writes = [] ∧
      (servo_gate_process_cmd default_eeprom_servo_gate_config
        { prev_open_ratio := 1/2, gate_state := .GATE_CLOSE }
        { ratio := 1/2, block_wait := false } 0 []).ready_signals = 1) :=
  ⟨by norm_num [ UNKNOWN_RATIO], by norm_num [SERVO_GATE_RATIO_DISABLED],
    by norm_num [clamp01],
    servo_skip_within_epsilon default_eeprom_servo_gate_config (1/2) .GATE_CLOSE
      { ratio := 1/2, block_wait := false } 0 []
      (by norm_num [ UNKNOWN_RATIO]) (by norm_num [SERVO_GATE_RATIO_DISABLED])
      (by norm_num [clamp01])⟩

/-- C7: the measurement mailbox has single-slot overwrite semantics:
publishing v1 then v2 before any wait leaves exactly one pending ready
token and a wait returns v2 (and a second wait finds no token); a block
time of 0 ms selects the indefinite `portMAX_DELAY` wait while a nonzero
one selects a finite tick bound; and a wait that finds no token within
its bound returns false leaving the measurement output unchanged. -/
theorem mailbox_overwrite_semantics :
    (∀ (v1 v2 : ℚ) (m : Mailbox) (out0 : ℚ),
      (scale_publish_measurement v2 (scale_publish_measurement v1 m)).measurement_ready
        = true ∧
      (scale_block_wait_for_next_measurement
        (scale_publish_measurement v2 (scale_publish_measurement v1 m)) out0).ok = true ∧
      (scale_block_wait_for_next_measurement
        (scale_publish_measurement v2 (scale_publish_measurement v1 m)) out0).out = v2 ∧
      (scale_block_wait_for_next_measurement
        (scale_block_wait_for_next_measurement
          (scale_publish_measurement v2 (scale_publish_measurement v1 m)) out0).mailbox
        out0).ok = false) ∧
    scale_wait_delay_ticks 0 = DelayTicks.infinite ∧
    (∀ ms : ℕ, ms ≠ 0 → scale_wait_delay_ticks ms = DelayTicks.finite (pdMS_TO_TICKS ms)) ∧
    (∀ (m : Mailbox) (out0 : ℚ), m.measurement_ready = false →
      (scale_block_wait_for_next_measurement m out0).ok = false ∧
      (scale_block_wait_for_next_measurement m out0).out = out0) := by
  refine ⟨fun v1 v2 m out0 => ?_, by simp [scale_wait_delay_ticks],
    fun ms h => by simp [scale_wait_delay_ticks, h],
    fun m out0 h => by simp [scale_block_wait_for_next_measurement, h]⟩
  simp [scale_publish_measurement, scale_block_wait_for_next_measurement]

/-- Witness for C7: publish 1 then 2 into an empty mailbox, wait twice;
a 5 ms wait bound is finite and a wait on a quiet mailbox times out. -/
theorem mailbox_overwrite_semantics_witness :
    ((scale_block_wait_for_next_measurement
        (scale_publish_measurement 2 (scale_publish_measurement 1
          { current_scale_measurement := 0, measurement_ready := false })) 0).out = 2) ∧
    ((5 : ℕ) ≠ 0 ∧ scale_wait_delay_ticks 5 = DelayTicks.finite (pdMS_TO_TICKS 5)) ∧
    (({ current_scale_measurement := 7, measurement_ready := false } : Mailbox).measurement_ready
        = false ∧
      (scale_block_wait_for_next_measurement
        { current_scale_measurement := 7, measurement_ready := false } 9).out = 9) :=
  ⟨(mailbox_overwrite_semantics.1 1 2
      { current_scale_measurement := 0, measurement_ready := false } 0).2.2.1,
    ⟨by decide, mailbox_overwrite_semantics.2.2.1 5 (by decide)⟩,
    ⟨by decide, (mailbox_overwrite_semantics.2.2.2
      { current_scale_measurement := 7, measurement_ready := false } 9 (by decide)).2⟩⟩

/-- A terminator byte on an empty buffer is a complete no-op of the
Sartorius listener step. -/
theorem sartoriusStep_term_nil (ch : Char) (h : ch = '\r' ∨ ch = '\n') :
    sartoriusStep [] ch = { buf := [], published := none, writeIdxs := [] } := by
  unfold sartoriusStep
  rw [if_pos h, if_neg (by simp)]

/-- A terminator byte on a non-empty buffer dispatches the decode of the
buffered frame and resets the buffer. -/
theorem sartoriusStep_term_pos (buf : List Char) (ch : Char)
    (h : ch = '\r' ∨ ch = '\n') (hb : buf ≠ []) :
    sartoriusStep buf ch
      = { buf := [], published := some (_decode_measurement_msg buf),
          writeIdxs := [buf.length] } := by
  unfold sartoriusStep
  rw [if_pos h, if_pos (by simpa [List.length_pos] using hb)]

/-- A non-terminator byte below capacity is appended with no publish. -/
theorem sartoriusStep_accum (buf : List Char) (ch : Char)
    (hch : ¬(ch = '\r' ∨ ch = '\n')) (h : buf.length < SARTORIUS_RX_BUFFER_CAP - 1) :
    sartoriusStep buf ch
      = { buf := buf ++ [ch], published := none, writeIdxs := [buf.length] } := by
  unfold sartoriusStep
  rw [if_neg hch, if_pos h]

/-- The publication stream of a run splits at any point of the input. -/
theorem sartoriusRunFrom_append_pubs (l1 l2 : List Char) : ∀ buf : List Char,
    (sartoriusRunFrom buf (l1 ++ l2)).pubs
      = (sartoriusRunFrom buf l1).pubs
        ++ (sartoriusRunFrom (sartoriusRunFrom buf l1).buf l2).pubs := by
  induction l1 with
  | nil => intro buf; simp [sartoriusRunFrom]
  | cons c cs ih => intro buf; simp [sartoriusRunFrom, ih]

/-- Non-terminator bytes accumulate in order with no publish while the
frame fits the buffer. -/
theorem sartoriusRunFrom_accum (l : List Char) : ∀ buf : List Char,
    (∀ c ∈ l, ¬(c = '\r' ∨ c = '\n')) →
    buf.length + l.length ≤ SARTORIUS_RX_BUFFER_CAP - 1 →
    (sartoriusRunFrom buf l).buf = buf ++ l ∧ (sartoriusRunFrom buf l).pubs = [] := by
  induction l with
  | nil => intro buf _ _; simp [sartoriusRunFrom]
  | cons c cs ih =>
    intro buf hl hlen
    have hc : ¬(c = '\r' ∨ c = '\n') := hl c (List.mem_cons_self c cs)
    have hcs : ∀ x ∈ cs, ¬(x = '\r' ∨ x = '\n') := fun x hx => hl x (List.mem_cons_of_mem c hx)
    have hlt : buf.length < SARTORIUS_RX_BUFFER_CAP - 1 := by
      unfold SARTORIUS_RX_BUFFER_CAP at *
      simp only [List.length_cons] at hlen; omega
    have hlen2 : (buf ++ [c]).length + cs.length ≤ SARTORIUS_RX_BUFFER_CAP - 1 := by
      unfold SARTORIUS_RX_BUFFER_CAP at *
      simp only [List.length_append, List.length_cons, List.length_nil] at *; omega
    rcases ih (buf ++ [c]) hcs hlen2 with ⟨h1, h2⟩
    constructor
    · simp [sartoriusRunFrom, sartoriusStep_accum buf c hc hlt, h1]
    · simp [sartoriusRunFrom, sartoriusStep_accum buf c hc hlt, h2]

/-- Publication stream of one terminated frame followed by more input:
the frame's decode, then whatever the rest publishes from an empty
buffer. -/
theorem sartoriusRunFrom_frame_pubs (l rest : List Char) (buf : List Char) (t : Char)
    (hl : ∀ c ∈ l, ¬(c = '\r' ∨ c = '\n')) (ht : t = '\r' ∨ t = '\n')
    (hlen : buf.length + l.length ≤ SARTORIUS_RX_BUFFER_CAP - 1) (hne : buf ++ l ≠ []) :
    (sartoriusRunFrom buf (l ++ t :: rest)).pubs
      = _decode_measurement_msg (buf ++ l) :: (sartoriusRunFrom [] rest).pubs := by
  rw [sartoriusRunFrom_append_pubs l (t :: rest) buf]
  rcases sartoriusRunFrom_accum l buf hl hlen with ⟨hbuf, hpubs⟩
  rw [hpubs, hbuf]
  simp [sartoriusRunFrom, sartoriusStep_term_pos (buf ++ l) t ht hne]

/-- A leading terminator on an empty buffer publishes nothing and changes
nothing for the rest of the input. -/
theorem sartoriusRunFrom_term_nil_pubs (t : Char) (rest : List Char)
    (ht : t = '\r' ∨ t = '\n') :
    (sartoriusRunFrom [] (t :: rest)).pubs = (sartoriusRunFrom [] rest).pubs := by
  simp [sartoriusRunFrom, sartoriusStep_term_nil t ht]

/-- C10: in the Sartorius read loop a line terminator arriving while the
frame buffer is empty triggers no decode and publishes nothing (so blank
lines and the second half of a CR-LF pair never yield a spurious
measurement of 0), a decode is attempted only when at least one byte is
buffered, and the frame stream "1.5\r\n2.5\r\n" publishes exactly 1.5
and 2.5. -/
theorem sartorius_empty_frame_no_publish :
    (∀ (buf : List Char) (ch : Char), (ch = '\r' ∨ ch = '\n') → buf = [] →
      (sartoriusStep buf ch).published = none ∧ (sartoriusStep buf ch).buf = buf) ∧
    (∀ (buf : List Char) (ch : Char), (sartoriusStep buf ch).published ≠ none →
      (ch = '\r' ∨ ch = '\n') ∧ buf ≠ []) ∧
    (sartoriusRun ("1.5\r\n2.5\r\n".toList)).pubs = [3/2, 5/2] := by
  have hstream : (sartoriusRun ("1.5\r\n2.5\r\n".toList)).pubs = [3/2, 5/2] := by
    have e : "1.5\r\n2.5\r\n".toList
        = ['1', '.', '5'] ++ '\r' :: ('\n' :: (['2', '.', '5'] ++ '\r' :: ['\n'])) := rfl
    unfold sartoriusRun
    rw [e,
      sartoriusRunFrom_frame_pubs ['1', '.', '5'] ('\n' :: (['2', '.', '5'] ++ '\r' :: ['\n']))
        [] '\r' (by decide) (Or.inl rfl) (by decide) (by decide),
      sartoriusRunFrom_term_nil_pubs '\n' (['2', '.', '5'] ++ '\r' :: ['\n']) (Or.inr rfl),
      sartoriusRunFrom_frame_pubs ['2', '.', '5'] ['\n'] [] '\r'
        (by decide) (Or.inl rfl) (by decide) (by decide),
      sartoriusRunFrom_term_nil_pubs '\n' [] (Or.inr rfl)]
    have e1 : _decode_measurement_msg ([] ++ ['1', '.', '5']) = 3/2 := by
      rw [show (([] ++ ['1', '.', '5']) : List Char)
          = [] ++ (List.replicate 0 ' ' ++ (mkNumber ['1'] ['5'] ++ [])) from rfl,
        _decode_measurement_msg_eval [] 0 ['1'] ['5'] [] (Or.inl rfl) (by decide)
          (by decide) (by decide) unit_head_nil]
      have n1 : natOfDigits ['1'] = 1 := by decide
      have n5 : natOfDigits ['5'] = 5 := by decide
      simp only [decimalValue, n1, n5, List.length_cons, List.length_nil]
      norm_num
    have e2 : _decode_measurement_msg ([] ++ ['2', '.', '5']) = 5/2 := by
      rw [show (([] ++ ['2', '.', '5']) : List Char)
          = [] ++ (List.replicate 0 ' ' ++ (mkNumber ['2'] ['5'] ++ [])) from rfl,
        _decode_measurement_msg_eval [] 0 ['2'] ['5'] [] (Or.inl rfl) (by decide)
          (by decide) (by decide) unit_head_nil]
      have n2 : natOfDigits ['2'] = 2 := by decide
      have n5 : natOfDigits ['5'] = 5 := by decide
      simp only [decimalValue, n2, n5, List.length_cons, List.length_nil]
      norm_num
    rw [e1, e2]
    rfl
  refine ⟨?_, ?_, hstream⟩
  · rintro buf ch h rfl
    simp [sartoriusStep, h]
  · intro buf ch h
    by_cases ht : ch = '\r' ∨ ch = '\n'
    · refine ⟨ht, fun hb => ?_⟩
      subst hb
      simp [sartoriusStep, ht] at h
    · exfalso
      by_cases hlen : buf.length < SARTORIUS_RX_BUFFER_CAP - 1
      · simp [sartoriusStep, ht, hlen] at h
      · simp [sartoriusStep, ht, hlen] at h

/-- Witness for C10: a newline on an empty buffer publishes nothing, and
the publish after "1" + CR is attributed to a terminator on a non-empty
buffer. -/
theorem sartorius_empty_frame_no_publish_witness :
    (('\n' = '\r' ∨ '\n' = '\n') ∧ (([] : List Char) = ([] : List Char)) ∧
      ((sartoriusStep [] '\n').published = none ∧ (sartoriusStep [] '\n').buf = [])) ∧
    ((sartoriusStep ['1'] '\r').published ≠ none ∧
      (('\r' = '\r' ∨ '\r' = '\n') ∧ (['1'] : List Char) ≠ [])) :=
  ⟨⟨Or.inr rfl, rfl, sartorius_empty_frame_no_publish.1 [] '\n' (Or.inr rfl) rfl⟩,
    ⟨by decide,
      sartorius_empty_frame_no_publish.2.1 ['1'] '\r' (by decide)⟩⟩

/-- Every rx-buffer index written by one generic-listener step is inside
the 32-byte buffer, with no assumption on the incoming state. -/
theorem genericStep_writeIdxs_lt (buf : List Char) (ch : Char) :
    ∀ i ∈ (genericStep buf ch).writeIdxs, i < GENERIC_RX_BUFFER_CAP := by
  unfold genericStep GENERIC_RX_BUFFER_CAP
  by_cases hc : (31 : ℕ) ≤ buf.length <;> by_cases hn : ch = '\n' <;>
    simp [hc, hn] <;> omega

/-- The generic listener's live buffer stays below capacity after any
step. -/
theorem genericStep_buf_le (buf : List Char) (ch : Char) :
    (genericStep buf ch).buf.length ≤ GENERIC_RX_BUFFER_CAP - 1 := by
  unfold genericStep GENERIC_RX_BUFFER_CAP
  by_cases hc : (31 : ℕ) ≤ buf.length <;> by_cases hn : ch = '\n' <;>
    simp [hc, hn] <;> omega

/-- Feeding any byte sequence to the generic listener keeps every buffer
write inside the buffer and ends below capacity. -/
theorem genericRunFrom_safe (input : List Char) : ∀ buf : List Char,
    (∀ i ∈ (genericRunFrom buf input).writeIdxs, i < GENERIC_RX_BUFFER_CAP) ∧
    ((genericRunFrom buf input).buf.length ≤ GENERIC_RX_BUFFER_CAP - 1 ∨ input = []) := by
  induction input with
  | nil => intro buf; simp [genericRunFrom]
  | cons ch rest ih =>
    intro buf
    refine ⟨?_, ?_⟩
    · intro i hi
      simp only [genericRunFrom, List.mem_append] at hi
      rcases hi with hi | hi
      · exact genericStep_writeIdxs_lt buf ch i hi
      · exact (ih (genericStep buf ch).buf).1 i hi
    · left
      rcases (ih (genericStep buf ch).buf).2 with h | h
      · simpa [genericRunFrom] using h
      · subst h
        simpa [genericRunFrom] using genericStep_buf_le buf ch

/-- Every rx-buffer index written by one Sartorius-listener step is inside
the 32-byte buffer, provided the incoming cursor is in range. -/
theorem sartoriusStep_writeIdxs_lt (buf : List Char) (ch : Char)
    (h : buf.length ≤ SARTORIUS_RX_BUFFER_CAP - 1) :
    ∀ i ∈ (sartoriusStep buf ch).writeIdxs, i < SARTORIUS_RX_BUFFER_CAP := by
  unfold sartoriusStep SARTORIUS_RX_BUFFER_CAP at *
  by_cases ht : ch = '\r' ∨ ch = '\n'
  · by_cases hp : 0 < buf.length <;> simp [ht, hp] <;> omega
  · by_cases hlen : buf.length < 31 <;> simp [ht, hlen] <;> omega

/-- The Sartorius listener's cursor-in-range invariant is preserved by
every step. -/
theorem sartoriusStep_buf_le (buf : List Char) (ch : Char)
    (h : buf.length ≤ SARTORIUS_RX_BUFFER_CAP - 1) :
    (sartoriusStep buf ch).buf.length ≤ SARTORIUS_RX_BUFFER_CAP - 1 := by
  unfold sartoriusStep SARTORIUS_RX_BUFFER_CAP at *
  by_cases ht : ch = '\r' ∨ ch = '\n'
  · by_cases hp : 0 < buf.length <;> simp [ht, hp] <;> omega
  · by_cases hlen : buf.length < 31 <;> simp [ht, hlen] <;> omega

/-- Feeding any byte sequence to the Sartorius listener from an in-range
state keeps every buffer write inside the buffer and the cursor in
range. -/
theorem sartoriusRunFrom_safe (input : List Char) : ∀ buf : List Char,
    buf.length ≤ SARTORIUS_RX_BUFFER_CAP - 1 →
    (∀ i ∈ (sartoriusRunFrom buf input).writeIdxs, i < SARTORIUS_RX_BUFFER_CAP) ∧
    (sartoriusRunFrom buf input).buf.length ≤ SARTORIUS_RX_BUFFER_CAP - 1 := by
  induction input with
  | nil => intro buf h; simpa [sartoriusRunFrom] using h
  | cons ch rest ih =>
    intro buf h
    have hstep := sartoriusStep_buf_le buf ch h
    refine ⟨?_, ?_⟩
    · intro i hi
      simp only [sartoriusRunFrom, List.mem_append] at hi
      rcases hi with hi | hi
      · exact sartoriusStep_writeIdxs_lt buf ch h i hi
      · exact (ih (sartoriusStep buf ch).buf hstep).1 i hi
    · simpa [sartoriusRunFrom] using (ih (sartoriusStep buf ch).buf hstep).2

/-- C2: for every byte sequence fed one byte at a time, both listeners
keep the write cursor within the frame buffer (no out-of-bounds write);
when the buffer is at capacity, the generic listener resets it before
accepting the byte and the Sartorius listener resets it instead of
accepting the byte, in both cases publishing nothing and leaving a state
equivalent to empty; and a decode can only be dispatched by a terminator
byte, never by the overflow handling. -/
theorem frame_buffer_overflow_safe :
    (∀ input : List Char,
      (∀ i ∈ (genericRun input).writeIdxs, i < GENERIC_RX_BUFFER_CAP) ∧
      (genericRun input).buf.length ≤ GENERIC_RX_BUFFER_CAP - 1) ∧
    (∀ input : List Char,
      (∀ i ∈ (sartoriusRun input).writeIdxs, i < SARTORIUS_RX_BUFFER_CAP) ∧
      (sartoriusRun input).buf.length ≤ SARTORIUS_RX_BUFFER_CAP - 1) ∧
    (∀ (buf : List Char) (ch : Char), GENERIC_RX_BUFFER_CAP - 1 ≤ buf.length → ch ≠ '\n' →
      (genericStep buf ch).buf = [ch] ∧ (genericStep buf ch).published = none) ∧
    (∀ (buf : List Char) (ch : Char), ¬(ch = '\r' ∨ ch = '\n') →
      SARTORIUS_RX_BUFFER_CAP - 1 ≤ buf.length →
      (sartoriusStep buf ch).buf = [] ∧ (sartoriusStep buf ch).published = none) ∧
    (∀ (buf : List Char) (ch : Char), (genericStep buf ch).published ≠ none → ch = '\n') := by
  refine ⟨?_, ?_, ?_, ?_, ?_⟩
  · intro input
    rcases genericRunFrom_safe input [] with ⟨h1, h2⟩
    refine ⟨h1, ?_⟩
    rcases h2 with h2 | h2
    · exact h2
    · subst h2; simp [genericRun, genericRunFrom]
  · intro input
    exact sartoriusRunFrom_safe input [] (by simp)
  · intro buf ch hfull hn
    unfold genericStep
    simp [hn, hfull]
  · intro buf ch ht hfull
    unfold sartoriusStep
    have : ¬(buf.length < SARTORIUS_RX_BUFFER_CAP - 1) := by omega
    simp [ht, this]
  · intro buf ch h
    by_cases hn : ch = '\n'
    · exact hn
    · exfalso
      unfold genericStep at h
      simp [hn] at h

/-- Witness for C2: a 40-byte overflowing line for each listener, and the
overflow steps at a concrete full buffer. -/
theorem frame_buffer_overflow_safe_witness :
    (∀ i ∈ (genericRun (List.replicate 40 'a' ++ ['\n'])).writeIdxs,
      i < GENERIC_RX_BUFFER_CAP) ∧
    (∀ i ∈ (sartoriusRun (List.replicate 40 'a' ++ ['\r'])).writeIdxs,
      i < SARTORIUS_RX_BUFFER_CAP) ∧
    (GENERIC_RX_BUFFER_CAP - 1 ≤ (List.replicate 31 'a').length ∧ ('b' ≠ '\n') ∧
      (genericStep (List.replicate 31 'a') 'b').buf = ['b'] ∧
      (genericStep (List.replicate 31 'a') 'b').published = none) ∧
    (¬('b' = '\r' ∨ 'b' = '\n') ∧
      SARTORIUS_RX_BUFFER_CAP - 1 ≤ (List.replicate 31 'a').length ∧
      (sartoriusStep (List.replicate 31 'a') 'b').buf = [] ∧
      (sartoriusStep (List.replicate 31 'a') 'b').published = none) :=
  ⟨(frame_buffer_overflow_safe.1 (List.replicate 40 'a' ++ ['\n'])).1,
    (frame_buffer_overflow_safe.2.1 (List.replicate 40 'a' ++ ['\r'])).1,
    ⟨by decide, by decide,
      frame_buffer_overflow_safe.2.2.1 (List.replicate 31 'a') 'b' (by decide) (by decide)⟩,
    ⟨by decide, by decide,
      frame_buffer_overflow_safe.2.2.2.1 (List.replicate 31 'a') 'b' (by decide) (by decide)⟩⟩

/-- A non-newline byte arriving below the overflow threshold is accepted
in place with no reset, no publish, and one data-byte store. -/
theorem genericStep_accum (buf : List Char) (ch : Char)
    (hch : ch ≠ '\n') (h : buf.length < GENERIC_RX_BUFFER_CAP - 1) :
    genericStep buf ch
      = { buf := buf ++ [ch], published := none, writeIdxs := [buf.length] } := by
  unfold genericStep
  rw [if_neg (by omega : ¬(GENERIC_RX_BUFFER_CAP - 1 ≤ buf.length)), if_neg hch]

/-- A newline arriving below the overflow threshold dispatches the decode
of the accumulated frame, newline included, and resets the buffer. -/
theorem genericStep_newline (buf : List Char) (h : buf.length < GENERIC_RX_BUFFER_CAP - 1) :
    genericStep buf '\n'
      = { buf := [], published := genericDecodeFrame (buf ++ ['\n']),
          writeIdxs := [buf.length, (buf ++ ['\n']).length] } := by
  unfold genericStep
  rw [if_neg (by omega : ¬(GENERIC_RX_BUFFER_CAP - 1 ≤ buf.length)), if_pos rfl]

/-- Bytes without a newline accumulate in order with no reset and no
publish, and then a newline dispatches the decode of the accumulated
frame (newline included), as long as the frame fits below the overflow
threshold. -/
theorem genericRunFrom_frame (l : List Char) : ∀ buf : List Char, '\n' ∉ l →
    buf.length + l.length ≤ GENERIC_RX_BUFFER_CAP - 2 →
    (genericRunFrom buf (l ++ ['\n'])).pubs
      = (genericDecodeFrame (buf ++ l ++ ['\n'])).toList := by
  induction l with
  | nil =>
    intro buf _ hlen
    have hc : buf.length < GENERIC_RX_BUFFER_CAP - 1 := by
      unfold GENERIC_RX_BUFFER_CAP at *; simp only [List.length_nil] at hlen; omega
    simp [genericRunFrom, genericStep_newline buf hc]
  | cons ch rest ih =>
    intro buf hn hlen
    have hch : ch ≠ '\n' := fun h => hn (h ▸ List.mem_cons_self ch rest)
    have hrest : '\n' ∉ rest := fun h => hn (List.mem_cons_of_mem ch h)
    have hc : buf.length < GENERIC_RX_BUFFER_CAP - 1 := by
      unfold GENERIC_RX_BUFFER_CAP at *; simp only [List.length_cons] at hlen; omega
    have hlen2 : (buf ++ [ch]).length + rest.length ≤ GENERIC_RX_BUFFER_CAP - 2 := by
      unfold GENERIC_RX_BUFFER_CAP at *
      simp only [List.length_append, List.length_cons, List.length_nil] at *
      omega
    calc (genericRunFrom buf ((ch :: rest) ++ ['\n'])).pubs
        = (genericRunFrom (buf ++ [ch]) (rest ++ ['\n'])).pubs := by
          simp [genericRunFrom, genericStep_accum buf ch hch hc]
      _ = (genericDecodeFrame ((buf ++ [ch]) ++ rest ++ ['\n'])).toList := ih _ hrest hlen2
      _ = (genericDecodeFrame (buf ++ (ch :: rest) ++ ['\n'])).toList := by
          simp

/-- Evaluation fact: `strtof` of the empty string performs no
conversion. -/
theorem strtofQ_nil : strtofQ [] = (0, 0) := by decide

/-- Evaluation of the generic decode when the sign is adjacent to the
digits: the scan stops at the '+' and the parse succeeds. -/
theorem genericDecodeFrame_plus_nospace :
    genericDecodeFrame ("ST,+12.345 kg\n".toList) = some (2469/200) := by
  have hscan : ("ST,+12.345 kg\n".toList).dropWhile
      (fun c => !(c.isDigit || c = '-' || c = '+'))
      = ['+'] ++ (mkNumber ['1', '2'] ['3', '4', '5'] ++ [' ', 'k', 'g', '\n']) := by
    decide
  have hval := strtofQ_eval ['+'] ['1', '2'] ['3', '4', '5'] [' ', 'k', 'g', '\n']
    (Or.inr (Or.inl rfl)) (by decide) (by decide) (by decide)
    (unit_head_cons ' ' _ (by decide))
  have hdv : decimalValue ['1', '2'] ['3', '4', '5'] = 2469/200 := by
    have e1 : natOfDigits ['1', '2'] = 12 := by decide
    have e2 : natOfDigits ['3', '4', '5'] = 345 := by decide
    simp only [decimalValue, e1, e2, List.length_cons, List.length_nil]
    norm_num
  simp only [genericDecodeFrame, hscan, hval, hdv]
  norm_num [mkNumber]
  decide

/-- Evaluation of the generic decode when spaces separate the sign from
the digits: the scan stops at the '+' and `strtof` consumes nothing, so
the frame is discarded. -/
theorem genericDecodeFrame_plus_space_none :
    genericDecodeFrame ("ST,+   12.345 kg\n".toList) = none := by
  have h2 : (strtofQ (("ST,+   12.345 kg\n".toList).dropWhile
      (fun c => !(c.isDigit || c = '-' || c = '+')))).2 = 0 := by decide
  simp only [genericDecodeFrame, h2]
  simp

/-- C1 counterexample: the claim asserts that feeding the bytes of
"ST,+   12.345 kg\n" publishes a measurement of about 12.345, but the
generic listener publishes nothing for that frame: the scan stops at the
'+' (the first digit-or-sign character) and `strtof` performs no
conversion there because spaces separate the sign from the digits. -/
theorem generic_plus_space_counterexample :
    (genericRun ("ST,+   12.345 kg\n".toList)).pubs = [] ∧
    genericDecodeFrame ("ST,+   12.345 kg\n".toList) = none := by
  have hdec : genericDecodeFrame ("ST,+   12.345 kg\n".toList) = none :=
    genericDecodeFrame_plus_space_none
  have e : ([] : List Char) ++ "ST,+   12.345 kg".toList ++ ['\n']
      = "ST,+   12.345 kg\n".toList := rfl
  have h := genericRunFrom_frame ("ST,+   12.345 kg".toList) [] (by decide) (by decide)
  rw [e] at h
  refine ⟨?_, hdec⟩
  show (genericRunFrom [] ("ST,+   12.345 kg\n".toList)).pubs = []
  rw [show "ST,+   12.345 kg\n".toList = "ST,+   12.345 kg".toList ++ ['\n'] from rfl,
    h, hdec]
  rfl

/-- C1 (amended): the generic decode scans forward past every character
that is not a digit, '-' or '+', then parses a float from the first
qualifying position with standard float lexical rules, publishing iff the
parse cursor advanced: every terminated frame that fits the buffer
publishes exactly what this decode rule yields, and a frame containing no
digit or sign characters publishes nothing.  In particular
"ST,+12.345 kg\n" publishes 12.345 and "no numbers here\n" publishes
nothing, while "ST,+   12.345 kg\n" publishes nothing because the parse
cursor does not advance when spaces separate the sign from the digits. -/
theorem generic_decode_amended :
    (∀ frame : List Char, '\n' ∉ frame → frame.length ≤ GENERIC_RX_BUFFER_CAP - 2 →
      (genericRun (frame ++ ['\n'])).pubs = (genericDecodeFrame (frame ++ ['\n'])).toList) ∧
    (∀ frame : List Char, (∀ c ∈ frame, c.isDigit = false ∧ c ≠ '-' ∧ c ≠ '+') →
      genericDecodeFrame frame = none) ∧
    (genericRun ("ST,+12.345 kg\n".toList)).pubs = [2469 / 200] ∧
    (genericRun ("ST,+   12.345 kg\n".toList)).pubs = [] ∧
    (genericRun ("no numbers here\n".toList)).pubs = [] := by
  have hpub : ∀ frame : List Char, '\n' ∉ frame →
      frame.length ≤ GENERIC_RX_BUFFER_CAP - 2 →
      (genericRun (frame ++ ['\n'])).pubs = (genericDecodeFrame (frame ++ ['\n'])).toList := by
    intro frame hn hlen
    simpa using genericRunFrom_frame frame [] hn (by simpa using hlen)
  have hnod : ∀ frame : List Char, (∀ c ∈ frame, c.isDigit = false ∧ c ≠ '-' ∧ c ≠ '+') →
      genericDecodeFrame frame = none := by
    intro frame h
    have hdrop : frame.dropWhile (fun c => !(c.isDigit || c = '-' || c = '+')) = [] := by
      rw [List.dropWhile_eq_nil_iff]
      intro c hc
      rcases h c hc with ⟨h1, h2, h3⟩
      simp [h1, h2, h3]
    simp only [genericDecodeFrame]
    rw [hdrop, strtofQ_nil]
    simp
  refine ⟨hpub, hnod, ?_, ?_, ?_⟩
  · rw [show "ST,+12.345 kg\n".toList = "ST,+12.345 kg".toList ++ ['\n'] from rfl,
      hpub ("ST,+12.345 kg".toList) (by decide) (by decide),
      show "ST,+12.345 kg".toList ++ ['\n'] = "ST,+12.345 kg\n".toList from rfl,
      genericDecodeFrame_plus_nospace]
    rfl
  · rw [show "ST,+   12.345 kg\n".toList = "ST,+   12.345 kg".toList ++ ['\n'] from rfl,
      hpub ("ST,+   12.345 kg".toList) (by decide) (by decide),
      show "ST,+   12.345 kg".toList ++ ['\n'] = "ST,+   12.345 kg\n".toList from rfl,
      genericDecodeFrame_plus_space_none]
    rfl
  · rw [show "no numbers here\n".toList = "no numbers here".toList ++ ['\n'] from rfl,
      hpub ("no numbers here".toList) (by decide) (by decide),
      show "no numbers here".toList ++ ['\n'] = "no numbers here\n".toList from rfl,
      hnod ("no numbers here\n".toList) (by decide)]
    rfl

/-- Witness for C1 (amended): the framing part at the in-capacity frame
"g 2.5" and the no-digit part at "abc". -/
theorem generic_decode_amended_witness :
    (('\n' ∉ ("g 2.5".toList)) ∧ ("g 2.5".toList).length ≤ GENERIC_RX_BUFFER_CAP - 2 ∧
      (genericRun ("g 2.5".toList ++ ['\n'])).pubs
        = (genericDecodeFrame ("g 2.5".toList ++ ['\n'])).toList) ∧
    ((∀ c ∈ ("abc".toList), c.isDigit = false ∧ c ≠ '-' ∧ c ≠ '+') ∧
      genericDecodeFrame ("abc".toList) = none) :=
  ⟨⟨by decide, by decide,
      generic_decode_amended.1 ("g 2.5".toList) (by decide) (by decide)⟩,
    ⟨by decide, generic_decode_amended.2.1 ("abc".toList) (by decide)⟩⟩

/-- Interpolated ramp writes are monotone in the time sample. -/
theorem ramp_write_le_next (r0 delta : ℚ) (startT rampUs : ℕ) (hd : 0 < delta)
    (hr : 0 < rampUs) (t t' : ℕ) (h : t ≤ t') :
    r0 + delta * (((t - startT : ℕ) : ℚ) / (rampUs : ℚ))
      ≤ r0 + delta * (((t' - startT : ℕ) : ℚ) / (rampUs : ℚ)) := by
  have hx : ((t - startT : ℕ) : ℚ) ≤ ((t' - startT : ℕ) : ℚ) := by
    exact_mod_cast Nat.sub_le_sub_right h startT
  have hc : (0 : ℚ) < (rampUs : ℚ) := by exact_mod_cast hr
  exact add_le_add_left
    (mul_le_mul_of_nonneg_left ((div_le_div_right hc).mpr hx) (le_of_lt hd)) r0

/-- An interpolated ramp write taken at or before the stop time never
exceeds the target value. -/
theorem ramp_write_le_target (r0 delta : ℚ) (startT rampUs : ℕ) (hd : 0 < delta)
    (hr : 0 < rampUs) (t : ℕ) (ht : ¬(startT + rampUs < t)) :
    r0 + delta * (((t - startT : ℕ) : ℚ) / (rampUs : ℚ)) ≤ r0 + delta := by
  have hle : t - startT ≤ rampUs := by omega
  have hx : ((t - startT : ℕ) : ℚ) ≤ (rampUs : ℚ) := by exact_mod_cast hle
  have hc : (0 : ℚ) < (rampUs : ℚ) := by exact_mod_cast hr
  have hfrac : ((t - startT : ℕ) : ℚ) / (rampUs : ℚ) ≤ 1 := (div_le_one hc).mpr hx
  calc r0 + delta * (((t - startT : ℕ) : ℚ) / (rampUs : ℚ))
      ≤ r0 + delta * 1 :=
        add_le_add_left (mul_le_mul_of_nonneg_left hfrac (le_of_lt hd)) r0
    _ = r0 + delta := by ring

/-- For an opening-to-closing ramp with positive delta and monotone time
samples, the loop writes followed by the final exact write form a
non-decreasing sequence. -/
theorem ramp_loop_writes_chain (r0 delta : ℚ) (startT rampUs : ℕ)
    (hd : 0 < delta) (hr : 0 < rampUs) :
    ∀ times : List ℕ, times.Chain' (· ≤ ·) →
      (ramp_loop_writes r0 delta startT rampUs times ++ [r0 + delta]).Chain' (· ≤ ·)
  | [], _ => by simp [ramp_loop_writes]
  | t :: ts, hmono => by
    by_cases hbr : startT + rampUs < t
    · simp [ramp_loop_writes, hbr]
    · rw [show ramp_loop_writes r0 delta startT rampUs (t :: ts)
          = (r0 + delta * (((t - startT : ℕ) : ℚ) / (rampUs : ℚ)))
            :: ramp_loop_writes r0 delta startT rampUs ts by
        simp [ramp_loop_writes, hbr]]
      rw [List.cons_append, List.chain'_cons']
      refine ⟨?_, ramp_loop_writes_chain r0 delta startT rampUs hd hr ts
        (List.chain'_cons'.mp hmono).2⟩
      intro y hy
      cases ts with
      | nil =>
        simp only [ramp_loop_writes, List.nil_append, List.head?_cons,
          Option.mem_def, Option.some.injEq] at hy
        subst hy
        exact ramp_write_le_target r0 delta startT rampUs hd hr t hbr
      | cons t2 ts2 =>
        by_cases hbr2 : startT + rampUs < t2
        · rw [show ramp_loop_writes r0 delta startT rampUs (t2 :: ts2) = [] by
            simp [ramp_loop_writes, hbr2]] at hy
          simp only [List.nil_append, List.head?_cons, Option.mem_def,
            Option.some.injEq] at hy
          subst hy
          exact ramp_write_le_target r0 delta startT rampUs hd hr t hbr
        · rw [show ramp_loop_writes r0 delta startT rampUs (t2 :: ts2)
              = (r0 + delta * (((t2 - startT : ℕ) : ℚ) / (rampUs : ℚ)))
                :: ramp_loop_writes r0 delta startT rampUs ts2 by
            simp [ramp_loop_writes, hbr2]] at hy
          simp only [List.cons_append, List.head?_cons, Option.mem_def,
            Option.some.injEq] at hy
          subst hy
          exact ramp_write_le_next r0 delta startT rampUs hd hr t t2
            ((List.chain'_cons'.mp hmono).1 t2 rfl)

/-- C5: for a ramped move from previous ratio r0 to target r1 with
r1 > r0 (farther than the skip epsilon), given monotone `time_us_32`
samples taken at or after the ramp start, the sequence of duty-cycle
write ratios is non-decreasing over time and the final hardware write is
exactly r1. -/
theorem servo_ramp_monotone (cfg : eeprom_servo_gate_config_t) (r0 r1 : ℚ)
    (gs : gate_state_t) (bw : Bool) (startT : ℕ) (times : List ℕ)
    (h0 : 0 ≤ r0) (h1 : r1 ≤ 1) (hlt : r0 < r1) (heps : 1 / 10000 < r1 - r0)
    (hmono : times.Chain' (· ≤ ·)) (hge : ∀ t ∈ times, startT ≤ t) :
    ((servo_gate_process_cmd cfg { prev_open_ratio := r0, gate_state := gs }
        { ratio := r1, block_wait := bw } startT times).writes).Chain' (· ≤ ·) ∧
    ((servo_gate_process_cmd cfg { prev_open_ratio := r0, gate_state := gs }
        { ratio := r1, block_wait := bw } startT times).writes).getLast? = some r1 := by
  have hr1pos : (0 : ℚ) < r1 := lt_of_le_of_lt h0 hlt
  have hdis : ({ ratio := r1, block_wait := bw } : servo_gate_cmd_t).ratio
      ≠ SERVO_GATE_RATIO_DISABLED := by
    simp only [SERVO_GATE_RATIO_DISABLED]
    intro h
    rw [h] at hr1pos
    norm_num at hr1pos
  have hunk : r0 ≠ UNKNOWN_RATIO := by
    simp only [ UNKNOWN_RATIO]
    intro h
    rw [h] at h0
    norm_num at h0
  have hcl : clamp01 r1 = r1 := by
    unfold clamp01
    rw [if_neg (not_lt.mpr (le_of_lt hr1pos)), if_neg (not_lt.mpr h1)]
  have habs : 1 / 10000 < |r1 - r0| := by
    rw [abs_of_pos (sub_pos.mpr hlt)]
    exact heps
  have hneg : ¬(r1 - r0 < 0) := not_lt.mpr (le_of_lt (sub_pos.mpr hlt))
  have hdpos : 0 < r1 - r0 := sub_pos.mpr hlt
  simp only [servo_gate_process_cmd]
  rw [if_neg hdis]
  simp only [hcl]
  rw [if_neg hunk, if_pos habs, if_neg hneg]
  by_cases hsmall : ramp_time_us (r1 - r0)
      (if cfg.shutter_close_speed_pct_s < 1 / 10000 then 1 / 10000
        else cfg.shutter_close_speed_pct_s) < 1000
  · rw [if_pos hsmall]
    exact ⟨List.chain'_singleton r1, rfl⟩
  · rw [if_neg hsmall]
    have hrpos : 0 < ramp_time_us (r1 - r0)
        (if cfg.shutter_close_speed_pct_s < 1 / 10000 then 1 / 10000
          else cfg.shutter_close_speed_pct_s) := by omega
    constructor
    · have hch := ramp_loop_writes_chain r0 (r1 - r0) startT
        (ramp_time_us (r1 - r0)
          (if cfg.shutter_close_speed_pct_s < 1 / 10000 then 1 / 10000
            else cfg.shutter_close_speed_pct_s)) hdpos hrpos times hmono
      rw [show r0 + (r1 - r0) = r1 by ring] at hch
      exact hch
    · exact List.getLast?_concat _

/-- Witness for C5 at the default configuration: ramp from 0 to 1 with
samples at 0 and 111111 µs. -/
theorem servo_ramp_monotone_witness :
    ((0 : ℚ) ≤ 0 ∧ (1 : ℚ) ≤ 1 ∧ (0 : ℚ) < 1 ∧ (1 : ℚ) / 10000 < 1 - 0 ∧
      ([0, 111111] : List ℕ).Chain' (· ≤ ·) ∧ (∀ t ∈ ([0, 111111] : List ℕ), 0 ≤ t)) ∧
    (((servo_gate_process_cmd default_eeprom_servo_gate_config
        { prev_open_ratio := 0, gate_state := .GATE_OPEN }
        { ratio := 1, block_wait := false } 0 [0, 111111]).writes).Chain' (· ≤ ·) ∧
      ((servo_gate_process_cmd default_eeprom_servo_gate_config
        { prev_open_ratio := 0, gate_state := .GATE_OPEN }
        { ratio := 1, block_wait := false } 0 [0, 111111]).writes).getLast? = some 1) :=
  ⟨⟨le_refl 0, le_refl 1, by norm_num, by norm_num,
      List.chain'_pair.mpr (by norm_num), by decide⟩,
    servo_ramp_monotone default_eeprom_servo_gate_config 0 1 .GATE_OPEN false 0
      [0, 111111] (le_refl 0) (le_refl 1) (by norm_num) (by norm_num)
      (List.chain'_pair.mpr (by norm_num)) (by decide)⟩

/-- C8: the Sartorius decode, applied to any frame of the form optional
sign character, then spaces, then a decimal number, then inert trailing
unit text, yields the signed value of the number (the unit text is
ignored because the float parse stops at its first character); feeding
the frame "-   3.500 GN" followed by a carriage return through the
listener publishes exactly −3.5. -/
theorem sartorius_decode_structured :
    (∀ (sgnC : List Char) (nsp : ℕ) (d1 d2 u : List Char),
      (sgnC = [] ∨ sgnC = ['+'] ∨ sgnC = ['-']) →
      (∀ c ∈ d1, c.isDigit = true) → (∀ c ∈ d2, c.isDigit = true) →
      d1 ≠ [] →
      (∀ c, u.head? = some c →
        c.isDigit = false ∧ c ≠ '.' ∧ c ≠ 'e' ∧ c ≠ 'E') →
      _decode_measurement_msg (sgnC ++ (List.replicate nsp ' ' ++ (mkNumber d1 d2 ++ u)))
        = (if sgnC = ['-'] then (-1 : ℚ) else 1) * decimalValue d1 d2) ∧
    (sartoriusRun ("-   3.500 GN\r".toList)).pubs = [-(7/2)] := by
  refine ⟨fun sgnC nsp d1 d2 u hs hd1 hd2 h1 hu =>
    _decode_measurement_msg_eval sgnC nsp d1 d2 u hs hd1 hd2 h1 hu, ?_⟩
  have e : "-   3.500 GN\r".toList
      = "-   3.500 GN".toList ++ '\r' :: ([] : List Char) := rfl
  unfold sartoriusRun
  rw [e, sartoriusRunFrom_frame_pubs ("-   3.500 GN".toList) [] [] '\r'
    (by decide) (Or.inl rfl) (by decide) (by decide)]
  have edec : _decode_measurement_msg (([] : List Char) ++ "-   3.500 GN".toList)
      = -(7/2) := by
    rw [show (([] : List Char) ++ "-   3.500 GN".toList)
        = ['-'] ++ (List.replicate 3 ' '
            ++ (mkNumber ['3'] ['5', '0', '0'] ++ [' ', 'G', 'N'])) from rfl,
      _decode_measurement_msg_eval ['-'] 3 ['3'] ['5', '0', '0'] [' ', 'G', 'N']
        (Or.inr (Or.inr rfl)) (by decide) (by decide) (by decide)
        (unit_head_cons ' ' _ (by decide))]
    have n3 : natOfDigits ['3'] = 3 := by decide
    have n500 : natOfDigits ['5', '0', '0'] = 500 := by decide
    simp only [decimalValue, n3, n500, List.length_cons, List.length_nil]
    norm_num
  rw [edec]
  rfl

/-- Witness for C8: the structured-decode statement applied at the frame
"-   3.500 GN". -/
theorem sartorius_decode_structured_witness :
    ((['-'] = ([] : List Char) ∨ ['-'] = ['+'] ∨ ['-'] = ['-']) ∧
      (∀ c ∈ (['3'] : List Char), c.isDigit = true) ∧
      (∀ c ∈ (['5', '0', '0'] : List Char), c.isDigit = true) ∧
      (['3'] : List Char) ≠ [] ∧
      (∀ c, ([' ', 'G', 'N'] : List Char).head? = some c →
        c.isDigit = false ∧ c ≠ '.' ∧ c ≠ 'e' ∧ c ≠ 'E') ∧
      _decode_measurement_msg
          (['-'] ++ (List.replicate 3 ' '
            ++ (mkNumber ['3'] ['5', '0', '0'] ++ [' ', 'G', 'N'])))
        = (if (['-'] : List Char) = ['-'] then (-1 : ℚ) else 1)
            * decimalValue ['3'] ['5', '0', '0']) :=
  ⟨Or.inr (Or.inr rfl), by decide, by decide, by decide,
    unit_head_cons ' ' _ (by decide),
    sartorius_decode_structured.1 ['-'] 3 ['3'] ['5', '0', '0'] [' ', 'G', 'N']
      (Or.inr (Or.inr rfl)) (by decide) (by decide) (by decide)
      (unit_head_cons ' ' _ (by decide))⟩

end OpenTrickler
